import Mathlib

/-!
Shallow embedding of the `raster-footprint` geometry pipeline
(`src/raster_footprint/{mask,densify,reproject,simplify,footprint}.py`).

Coordinates are modelled exactly as rational numbers; the Euclidean segment
length used by `densify_by_distance` (a square root) is modelled over the
reals.  External collaborators (the mask vectorizer `rasterio.features.shapes`,
the polygon union `shapely.unary_union`, the convex hull, the reprojection
engine `rasterio.warp.transform_geom` and the ring simplifier
`shapely.simplify`) are parameters of the embedding, as the spec treats them
as external capabilities.  `shapely.geometry.polygon.orient` is implemented
concretely from its documented semantics (reverse a ring whose signed area has
the wrong sign), since the winding claims depend on it.
-/

namespace RasterFootprint

/-- A 2D coordinate pair. -/
abbrev Point : Type := ℚ × ℚ

/-- A ring: an ordered list of points (closed when first = last). -/
abbrev Ring : Type := List Point

/-- A polygon: one exterior ring plus interior rings (holes). -/
structure Polygon where
  exterior : Ring
  holes : List Ring
deriving DecidableEq, Repr

/-- The `Polygon | MultiPolygon` sum type of the pipeline. -/
inductive Geometry where
  | polygon (p : Polygon)
  | multipolygon (ps : List Polygon)
deriving DecidableEq, Repr

/-- Opaque CRS identifier (compared for equality only). -/
abbrev CRS : Type := ℕ

/-- A 6-parameter affine pixel-to-CRS transform (opaque to the core: it is
only handed to the external vectorizer). -/
structure Affine where
  a : ℚ
  b : ℚ
  c : ℚ
  d : ℚ
  e : ℚ
  f : ℚ
deriving DecidableEq, Repr

/-- A raster sample value: NaN or a (rational) number.  Structural equality
on `Val` agrees with numpy `!=` in every branch the code takes: NaN is
compared only through the dedicated `isnan` test. -/
inductive Val where
  | nan : Val
  | num (q : ℚ) : Val
deriving DecidableEq, Repr

/-- IEEE-style equality on values: NaN compares unequal to everything,
including itself (used for Python `==` on possibly-NaN floats). -/
def valEq : Val → Val → Bool
  | Val.num a, Val.num b => a = b
  | _, _ => false

/-- A validity mask: a 2D grid of byte values (0 or 255). -/
abbrev Mask : Type := List (List ℕ)

/-- `DEFAULT_PRECISION` from `constants.py`. -/
def DEFAULT_PRECISION : ℕ := 7

/-! ### Rounding (numpy `np.round`, round-half-to-even) -/

/-- Round a rational to the nearest integer, halves to even
(the numpy/Python rounding mode). -/
def roundHalfEvenQ (y : ℚ) : ℤ :=
  let n : ℤ := ⌊y⌋
  let frac : ℚ := y - n
  if frac > 1/2 then n + 1
  else if frac < 1/2 then n
  else if Even n then n else n + 1

/-- `np.round(x, decimals = prec)` on an exact rational. -/
def roundQ (prec : ℕ) (x : ℚ) : ℚ :=
  (roundHalfEvenQ (x * 10 ^ prec) : ℚ) / 10 ^ prec

/-- Pointwise coordinate rounding. -/
def roundPoint (prec : ℕ) (p : Point) : Point :=
  (roundQ prec p.1, roundQ prec p.2)

open Classical in
/-- Round a real to the nearest integer, halves to even. -/
noncomputable def roundHalfEvenR (y : ℝ) : ℤ :=
  let n : ℤ := ⌊y⌋
  if y - n > 1/2 then n + 1
  else if y - n < 1/2 then n
  else if Even n then n else n + 1

/-- `np.round(x, decimals = prec)` on a real, producing the exact decimal. -/
noncomputable def roundR (prec : ℕ) (x : ℝ) : ℚ :=
  (roundHalfEvenR (x * 10 ^ prec) : ℚ) / 10 ^ prec

/-- Rounding a real that happens to be rational agrees with the rational
rounding. -/
theorem roundR_ratCast (prec : ℕ) (q : ℚ) : roundR prec ((q : ℝ)) = roundQ prec q := by
  unfold roundR roundQ roundHalfEvenR roundHalfEvenQ
  have hcast : ((q : ℝ)) * 10 ^ prec = (((q * 10 ^ prec : ℚ) : ℝ)) := by push_cast; ring
  rw [hcast]
  have hfloor : ⌊((q * 10 ^ prec : ℚ) : ℝ)⌋ = ⌊q * 10 ^ prec⌋ := Rat.floor_cast _
  rw [hfloor]
  set y : ℚ := q * 10 ^ prec with hy
  set n : ℤ := ⌊y⌋ with hn
  have e1 : ((y : ℝ)) - (n : ℝ) = (((y - (n : ℚ) : ℚ)) : ℝ) := by push_cast; ring
  have e2 : ((1 : ℝ)/2) = (((1/2 : ℚ)) : ℝ) := by norm_num
  have h1 : ((y : ℝ)) - (n : ℝ) > 1/2 ↔ y - n > 1/2 := by
    rw [e1, e2, gt_iff_lt, Rat.cast_lt, ← gt_iff_lt]
  have h2 : ((y : ℝ)) - (n : ℝ) < 1/2 ↔ y - n < 1/2 := by
    rw [e1, e2, Rat.cast_lt]
  by_cases hgt : y - n > 1/2
  · rw [if_pos (h1.mpr hgt), if_pos hgt]
  · rw [if_neg (fun h => hgt (h1.mp h)), if_neg hgt]
    by_cases hlt : y - n < 1/2
    · rw [if_pos (h2.mpr hlt), if_pos hlt]
    · rw [if_neg (fun h => hlt (h2.mp h)), if_neg hlt]

/-! ### Signed area, `shapely.geometry.polygon.orient`, winding invariant -/

/-- Cross term of the shoelace formula. -/
def cross (p q : Point) : ℚ := p.1 * q.2 - q.1 * p.2

/-- Twice the signed area of a closed ring (shoelace over adjacent pairs;
for a closed ring, first = last, this equals the cyclic sum).  Positive for
counter-clockwise rings. -/
def signedArea2 : Ring → ℚ
  | p :: q :: rest => cross p q + signedArea2 (q :: rest)
  | _ => 0

theorem signedArea2_nil : signedArea2 [] = 0 := rfl

theorem signedArea2_single (p : Point) : signedArea2 [p] = 0 := rfl

theorem signedArea2_cons_cons (p q : Point) (rest : List Point) :
    signedArea2 (p :: q :: rest) = cross p q + signedArea2 (q :: rest) := rfl

theorem signedArea2_append_single (l : Ring) (x : Point) (h : l ≠ []) :
    signedArea2 (l ++ [x]) = signedArea2 l + cross (l.getLast h) x := by
  induction l with
  | nil => exact absurd rfl h
  | cons p rest ih =>
    cases rest with
    | nil => simp [signedArea2]
    | cons q rest' =>
      have hne : q :: rest' ≠ [] := List.cons_ne_nil _ _
      have : ((p :: q :: rest') ++ [x]) = p :: ((q :: rest') ++ [x]) := rfl
      rw [this]
      have hgl : (p :: q :: rest').getLast h = (q :: rest').getLast hne :=
        List.getLast_cons hne
      rw [hgl]
      show cross p q + signedArea2 ((q :: rest') ++ [x]) = _
      rw [ih hne]
      show cross p q + (signedArea2 (q :: rest') + cross ((q :: rest').getLast hne) x) =
        (cross p q + signedArea2 (q :: rest')) + cross ((q :: rest').getLast hne) x
      ring

theorem cross_comm_neg (p q : Point) : cross q p = - cross p q := by
  unfold cross; ring

/-- Reversing a ring negates its signed area. -/
theorem signedArea2_reverse (l : Ring) : signedArea2 l.reverse = - signedArea2 l := by
  induction l with
  | nil => simp [signedArea2]
  | cons p rest ih =>
    cases rest with
    | nil => simp [signedArea2]
    | cons q rest' =>
      have hrev : (p :: q :: rest').reverse = (q :: rest').reverse ++ [p] := by
        simp
      rw [hrev]
      have hne : (q :: rest').reverse ≠ [] := by simp
      rw [signedArea2_append_single _ _ hne]
      have hlast : (q :: rest').reverse.getLast hne = q := by
        rw [List.getLast_reverse]
        rfl
      rw [hlast, ih, cross_comm_neg]
      show -signedArea2 (q :: rest') + - cross p q = -(cross p q + signedArea2 (q :: rest'))
      ring

/-- `shapely.geometry.polygon.orient` with the default sign `1.0`: keep the
exterior if its signed area is nonnegative, else reverse it; keep a hole if
its signed area is nonpositive, else reverse it. -/
def orient (p : Polygon) : Polygon :=
  { exterior := if signedArea2 p.exterior ≥ 0 then p.exterior else p.exterior.reverse
    holes := p.holes.map (fun h => if signedArea2 h ≤ 0 then h else h.reverse) }

/-- The winding invariant for one polygon: exterior CCW (nonnegative signed
area), every hole CW (nonpositive signed area). -/
def windingOKP (p : Polygon) : Prop :=
  signedArea2 p.exterior ≥ 0 ∧ ∀ h ∈ p.holes, signedArea2 h ≤ 0

/-- The winding invariant for a geometry. -/
def windingOK : Geometry → Prop
  | Geometry.polygon p => windingOKP p
  | Geometry.multipolygon ps => ∀ p ∈ ps, windingOKP p

instance : DecidablePred windingOKP := fun p => by
  unfold windingOKP; infer_instance

theorem windingOKP_orient (p : Polygon) : windingOKP (orient p) := by
  constructor
  · show signedArea2 (if signedArea2 p.exterior ≥ 0 then p.exterior else p.exterior.reverse) ≥ 0
    by_cases h : signedArea2 p.exterior ≥ 0
    · rwa [if_pos h]
    · rw [if_neg h, signedArea2_reverse]
      linarith [lt_of_not_ge h]
  · intro h hm
    simp only [orient, List.mem_map] at hm
    obtain ⟨r, _, hr⟩ := hm
    subst hr
    by_cases hs : signedArea2 r ≤ 0
    · rwa [if_pos hs]
    · rw [if_neg hs, signedArea2_reverse]
      linarith [lt_of_not_ge hs]

/-! ### Consecutive-duplicate removal (`itertools.groupby` key extraction) -/

/-- `dedupAux prev l` drops each element equal to the previous kept one:
the tail of `[k for k, _ in groupby (prev :: l)]`. -/
def dedupAux (prev : Point) : List Point → List Point
  | [] => []
  | q :: rest => if q = prev then dedupAux prev rest else q :: dedupAux q rest

/-- `[k for k, _ in groupby l]`: collapse runs of equal consecutive points. -/
def dedupRing : Ring → Ring
  | [] => []
  | p :: rest => p :: dedupAux p rest

theorem dedupAux_sublist (prev : Point) (l : List Point) :
    List.Sublist (dedupAux prev l) l := by
  induction l generalizing prev with
  | nil => exact List.Sublist.refl _
  | cons q rest ih =>
    unfold dedupAux
    by_cases h : q = prev
    · rw [if_pos h]
      exact (ih prev).trans (List.sublist_cons_self q rest)
    · rw [if_neg h]
      exact List.Sublist.cons₂ q (ih q)

/-- The dedup only removes points: the output is a sublist of the input. -/
theorem dedupRing_sublist (l : Ring) : List.Sublist (dedupRing l) l := by
  cases l with
  | nil => exact List.Sublist.refl _
  | cons p rest => exact List.Sublist.cons₂ p (dedupAux_sublist p rest)

theorem chain'_ne_cons_dedupAux (prev : Point) (l : List Point) :
    List.Chain' (· ≠ ·) (prev :: dedupAux prev l) := by
  induction l generalizing prev with
  | nil => simp [dedupAux]
  | cons q rest ih =>
    unfold dedupAux
    by_cases h : q = prev
    · rw [if_pos h]; exact ih prev
    · rw [if_neg h]
      exact List.Chain'.cons (fun heq => h heq.symm) (ih q)

/-- The dedup output has no two consecutive equal points. -/
theorem chain'_ne_dedupRing (l : Ring) : List.Chain' (· ≠ ·) (dedupRing l) := by
  cases l with
  | nil => simp [dedupRing]
  | cons p rest => exact chain'_ne_cons_dedupAux p rest

theorem dedupAux_of_chain' (prev : Point) (l : List Point)
    (h : List.Chain' (· ≠ ·) (prev :: l)) : dedupAux prev l = l := by
  induction l generalizing prev with
  | nil => rfl
  | cons q rest ih =>
    unfold dedupAux
    rw [List.chain'_cons] at h
    rw [if_neg (fun hq => h.1 hq.symm), ih q h.2]

/-- The dedup changes nothing on a list that already has no consecutive
duplicates (so non-consecutive duplicate points are left in place). -/
theorem dedupRing_of_chain' (l : Ring) (h : List.Chain' (· ≠ ·) l) :
    dedupRing l = l := by
  cases l with
  | nil => rfl
  | cons p rest =>
    show p :: dedupAux p rest = p :: rest
    rw [dedupAux_of_chain' p rest h]

theorem dedupRing_head? (l : Ring) : (dedupRing l).head? = l.head? := by
  cases l <;> rfl

theorem dedupAux_getLast? (prev : Point) (l : List Point) :
    (prev :: dedupAux prev l).getLast? = (prev :: l).getLast? := by
  induction l generalizing prev with
  | nil => rfl
  | cons q rest ih =>
    unfold dedupAux
    by_cases h : q = prev
    · rw [if_pos h, ih prev, List.getLast?_cons_cons, h]
    · rw [if_neg h, List.getLast?_cons_cons, List.getLast?_cons_cons, ih q]

/-- The dedup preserves the last element. -/
theorem dedupRing_getLast? (l : Ring) : (dedupRing l).getLast? = l.getLast? := by
  cases l with
  | nil => rfl
  | cons p rest => exact dedupAux_getLast? p rest

/-! ### Mask Builder (`mask.create_mask`) -/

/-- A 2D or 3D numeric data array (`data_array.ndim` dispatch). -/
inductive DataArray where
  | two (g : List (List Val))
  | three (g : List (List (List Val)))

/-- Normalize to band-major 3D (`data_array[np.newaxis, :]`). -/
def toBands : DataArray → List (List (List Val))
  | DataArray.two g => [g]
  | DataArray.three g => g

/-- Whether a single sample is marked 1 in the per-band 0/1 mask:
`mask[~np.isnan(data_array)] = 1` when `nodata` is NaN, else
`mask[data_array != nodata] = 1` (numpy `!=`: NaN compares unequal to any
number, which structural inequality on `Val` reproduces). -/
def validCell (nodata : Val) (v : Val) : Bool :=
  match nodata with
  | Val.nan => match v with
    | Val.nan => false
    | Val.num _ => true
  | Val.num _ => v ≠ nodata

/-- One output cell of `create_mask` when `nodata` is present: the per-band
0/1 indicators are summed with `np.sum(mask, axis=0, dtype=np.uint8)` —
a uint8 (mod 256) sum — and then thresholded (`mask[mask > 0] = 255`). -/
def maskCell (nodata : Val) (bands : List (List (List Val))) (r c : ℕ) : ℕ :=
  let count := (bands.filter (fun b =>
    match (b.get? r).bind (fun row => row.get? c) with
    | some v => validCell nodata v
    | none => false)).length
  if count % 256 > 0 then 255 else 0

/-- `mask.create_mask(data_array, nodata = nodata)`: 255 where data is valid,
0 where all bands equal `nodata`; all-255 when `nodata` is absent.  The
spatial shape is the last two dimensions of the input. -/
def create_mask (data_array : DataArray) (nodata : Option Val) : Mask :=
  let bands := toBands data_array
  let rows := bands.headI.length
  let cols := bands.headI.headI.length
  match nodata with
  | none => List.replicate rows (List.replicate cols 255)
  | some nd =>
    (List.range rows).map (fun r => (List.range cols).map (fun c => maskCell nd bands r c))

/-! ### Densifier by factor (`densify.densify_by_factor`) -/

/-- `np.interp(q, xp, fp)` over a sample list `(xp i, fp i)` with increasing
`xp`: clamp below the first sample, linearly interpolate on each segment,
recurse past segments left of the query. -/
def npInterp (q : ℚ) : List (ℚ × ℚ) → ℚ
  | [] => 0
  | [(_, y0)] => y0
  | (x0, y0) :: (x1, y1) :: rest =>
    if q ≤ x0 then y0
    else if q ≤ x1 then y0 + (q - x0) * (y1 - y0) / (x1 - x0)
    else npInterp q ((x1, y1) :: rest)

/-- The sample list `zip(existing_indices, signal)` with
`existing_indices = np.arange(0, len(points) * factor, factor)`. -/
def sampleGrid (factor : ℕ) (vs : List ℚ) : List (ℚ × ℚ) :=
  (List.range vs.length).map (fun i => (((i * factor : ℕ) : ℚ), vs.getD i 0))

/-- `densify_by_factor(point_list, factor, precision = precision)`: sample the
x- and y-signals at indices `0, factor, 2 * factor, ...`, linearly interpolate
(`np.interp`) at every integer index up to the last existing one, and round
the results to `precision` decimals (`np.round`).  (The source indexes
`existing_indices[-1]` and so assumes a nonempty list; the empty case is
mapped to the empty list here.) -/
def densify_by_factor (point_list : List Point) (factor : ℕ)
    (precision : ℕ := DEFAULT_PRECISION) : List Point :=
  match point_list with
  | [] => []
  | _ =>
    let xSamples := sampleGrid factor (point_list.map Prod.fst)
    let ySamples := sampleGrid factor (point_list.map Prod.snd)
    let m := (point_list.length - 1) * factor + 1
    (List.range m).map (fun (j : ℕ) =>
      (roundQ precision (npInterp (j : ℚ) xSamples),
       roundQ precision (npInterp (j : ℚ) ySamples)))

/-- The exact (unrounded) value `np.interp` produces at integer index `j`
over the grid of a signal `vs` sampled at `0, factor, 2 * factor, ...`:
linear interpolation by parameter index between the two enclosing original
samples. -/
def gridVal (factor : ℕ) (vs : List ℚ) (j : ℕ) : ℚ :=
  match vs[j / factor]?, vs[j / factor + 1]? with
  | some a, some b => a + ((j % factor : ℕ) : ℚ) / (factor : ℚ) * (b - a)
  | some a, none => a
  | _, _ => 0

/-- The corresponding interpolated point of a point list at index `j`. -/
def lerpAt (point_list : List Point) (factor : ℕ) (j : ℕ) : Point :=
  (gridVal factor (point_list.map Prod.fst) j,
   gridVal factor (point_list.map Prod.snd) j)

theorem npInterp_head_le (x0 y0 : ℚ) (rest : List (ℚ × ℚ)) (q : ℚ) (h : q ≤ x0) :
    npInterp q ((x0, y0) :: rest) = y0 := by
  cases rest with
  | nil => rfl
  | cons s rest' =>
    obtain ⟨x1, y1⟩ := s
    show (if q ≤ x0 then y0 else _) = y0
    rw [if_pos h]

theorem npInterp_segment (x0 y0 x1 y1 : ℚ) (rest : List (ℚ × ℚ)) (q : ℚ)
    (h0 : x0 < q) (h1 : q ≤ x1) :
    npInterp q ((x0, y0) :: (x1, y1) :: rest) = y0 + (q - x0) * (y1 - y0) / (x1 - x0) := by
  show (if q ≤ x0 then y0 else if q ≤ x1 then _ else _) = _
  rw [if_neg (not_le.mpr h0), if_pos h1]

theorem npInterp_skip (x0 y0 x1 y1 : ℚ) (rest : List (ℚ × ℚ)) (q : ℚ)
    (h0 : x0 < x1) (h : x1 < q) :
    npInterp q ((x0, y0) :: (x1, y1) :: rest) = npInterp q ((x1, y1) :: rest) := by
  show (if q ≤ x0 then y0 else if q ≤ x1 then _ else _) = _
  rw [if_neg (not_le.mpr (h0.trans h)), if_neg (not_le.mpr h)]

theorem npInterp_shift (s : List (ℚ × ℚ)) (d q : ℚ) :
    npInterp (q + d) (s.map (fun t => (t.1 + d, t.2))) = npInterp q s := by
  induction s with
  | nil => rfl
  | cons t rest ih =>
    obtain ⟨x0, y0⟩ := t
    cases rest with
    | nil => rfl
    | cons u rest' =>
      obtain ⟨x1, y1⟩ := u
      show (if q + d ≤ x0 + d then y0 else if q + d ≤ x1 + d then _ else _)
        = (if q ≤ x0 then y0 else if q ≤ x1 then _ else _)
      by_cases h0 : q ≤ x0
      · rw [if_pos (by linarith), if_pos h0]
      · rw [if_neg (by intro h; exact h0 (by linarith)), if_neg h0]
        by_cases h1 : q ≤ x1
        · rw [if_pos (by linarith), if_pos h1]
          ring_nf
        · rw [if_neg (by intro h; exact h1 (by linarith)), if_neg h1]
          exact ih

theorem sampleGrid_cons (factor : ℕ) (v : ℚ) (vs : List ℚ) :
    sampleGrid factor (v :: vs)
      = ((0 : ℚ), v) :: (sampleGrid factor vs).map (fun t => (t.1 + (factor : ℚ), t.2)) := by
  unfold sampleGrid
  rw [List.length_cons, List.range_succ_eq_map, List.map_cons, List.map_map, List.map_map]
  congr 1
  · show ((((0 * factor : ℕ)) : ℚ), v) = ((0 : ℚ), v)
    norm_num
  · exact List.map_congr_left (fun i _ => by
      show ((((i + 1) * factor : ℕ) : ℚ), (v :: vs).getD (i + 1) 0)
        = (((i * factor : ℕ) : ℚ) + (factor : ℚ), vs.getD i 0)
      have hget : (v :: vs).getD (i + 1) 0 = vs.getD i 0 := rfl
      rw [hget]
      congr 1
      push_cast
      ring)

/-- `np.interp` over the uniform sample grid evaluates, at every integer
index up to the last sample, to linear interpolation by parameter index
between the two enclosing original samples. -/
theorem npInterp_sampleGrid (factor : ℕ) (hF : 0 < factor) :
    ∀ (vs : List ℚ), vs ≠ [] → ∀ (j : ℕ), j ≤ (vs.length - 1) * factor →
      npInterp (j : ℚ) (sampleGrid factor vs) = gridVal factor vs j := by
  intro vs
  induction vs with
  | nil => intro h; exact absurd rfl h
  | cons v vs' ih =>
    intro _ j hj
    cases vs' with
    | nil =>
      simp only [List.length_cons, List.length_nil] at hj
      have hj0 : j = 0 := by omega
      subst hj0
      have hgrid : sampleGrid factor [v] = [((0 : ℚ), v)] := by
        unfold sampleGrid
        rw [show ([v] : List ℚ).length = 1 from rfl,
          show List.range 1 = [0] by rw [List.range_succ, List.range_zero]; rfl,
          List.map_cons, List.map_nil]
        norm_num
      rw [hgrid]
      show v = gridVal factor [v] 0
      unfold gridVal
      rw [Nat.zero_div]
      simp
    | cons w vs'' =>
      have hexp : sampleGrid factor (v :: w :: vs'')
          = ((0 : ℚ), v) :: (((factor : ℚ)), w)
            :: ((sampleGrid factor (w :: vs'')).tail.map (fun t => (t.1 + (factor : ℚ), t.2))) := by
        rw [sampleGrid_cons factor v (w :: vs''), sampleGrid_cons factor w vs'']
        simp
      rcases Nat.lt_or_ge j factor with hlt | hge
      · -- j on the first segment (or at the first sample)
        rcases Nat.eq_zero_or_pos j with hj0 | hjpos
        · subst hj0
          rw [hexp, npInterp_head_le _ _ _ _ (by norm_num)]
          unfold gridVal
          rw [Nat.zero_div]
          simp
        · rw [hexp, npInterp_segment _ _ _ _ _ _ (by exact_mod_cast hjpos)
            (by exact_mod_cast le_of_lt hlt)]
          unfold gridVal
          rw [Nat.div_eq_of_lt hlt, Nat.mod_eq_of_lt hlt]
          simp only [List.getElem?_cons_zero, List.getElem?_cons_succ]
          show v + ((j : ℚ) - 0) * (w - v) / ((factor : ℚ) - 0)
            = v + (j : ℚ) / (factor : ℚ) * (w - v)
          ring
      · rcases Nat.eq_or_lt_of_le hge with heq | hlt
        · -- j = factor: lands exactly on the second sample
          subst heq
          rw [hexp, npInterp_segment _ _ _ _ _ _ (by exact_mod_cast hF) (le_refl _)]
          have hFne : (factor : ℚ) ≠ 0 := by exact_mod_cast Nat.pos_iff_ne_zero.mp hF
          have hval : v + ((factor : ℚ) - 0) * (w - v) / ((factor : ℚ) - 0) = w := by
            field_simp
          rw [hval]
          unfold gridVal
          rw [Nat.div_self hF, Nat.mod_self]
          simp only [List.getElem?_cons_succ, List.getElem?_cons_zero]
          cases vs'' with
          | nil => simp
          | cons u rest => simp
        · -- factor < j: skip the first sample and shift down by one segment
          obtain ⟨k, rfl⟩ := Nat.exists_eq_add_of_le (le_of_lt hlt)
          have hk : factor + k = k + factor := Nat.add_comm _ _
          rw [hexp, npInterp_skip _ _ _ _ _ _ (by exact_mod_cast hF)
            (by exact_mod_cast hlt)]
          have hshift : ((((factor : ℚ)), w)
              :: ((sampleGrid factor (w :: vs'')).tail.map (fun t => (t.1 + (factor : ℚ), t.2))))
              = (sampleGrid factor (w :: vs'')).map (fun t => (t.1 + (factor : ℚ), t.2)) := by
            rw [sampleGrid_cons factor w vs'']
            simp
          rw [hshift]
          have hq : ((factor + k : ℕ) : ℚ) = (k : ℚ) + (factor : ℚ) := by push_cast; ring
          rw [hq, npInterp_shift]
          have hne' : (w :: vs'') ≠ [] := List.cons_ne_nil _ _
          have hj' : k ≤ ((w :: vs'').length - 1) * factor := by
            show k ≤ vs''.length * factor
            have hj2 : factor + k ≤ (vs''.length + 1) * factor := hj
            have h2 : (vs''.length + 1) * factor = vs''.length * factor + factor :=
              Nat.succ_mul _ _
            omega
          rw [ih hne' k hj']
          unfold gridVal
          have hdiv : (factor + k) / factor = k / factor + 1 := by
            rw [Nat.add_comm factor k, Nat.add_div_right _ hF]
          have hmod : (factor + k) % factor = k % factor := by
            rw [Nat.add_comm factor k, Nat.add_mod_right]
          rw [hdiv, hmod]
          simp only [List.getElem?_cons_succ]

/-! ### Densifier by distance (`densify.densify_by_distance`) -/

/-- Euclidean length of the segment from `p` to `q`
(`np.sqrt(np.sum(np.square(dxdy)))`). -/
noncomputable def segLen (p q : Point) : ℝ :=
  Real.sqrt (((q.1 - p.1 : ℚ) : ℝ) ^ 2 + ((q.2 - p.2 : ℚ) : ℝ) ^ 2)

/-- The points generated for one segment: `np.arange(steps[i])` scaled by
`coordinate_steps[i] = dxdy[i] / steps[i]` and offset by the segment's start
(`np.array((step, step)).T * coordinate_steps[index] + points[index]`).
For a zero-length segment `steps = 0`, so the row is empty and the divisions
`dx / 0` (NaN in numpy) are never consumed. -/
noncomputable def distanceChunk (distance : ℚ) (p q : Point) : List (ℝ × ℝ) :=
  let dx : ℝ := ((q.1 - p.1 : ℚ) : ℝ)
  let dy : ℝ := ((q.2 - p.2 : ℚ) : ℝ)
  let steps : ℝ := segLen p q / (distance : ℝ)
  (List.range ⌈steps⌉₊).map (fun (k : ℕ) =>
    (((p.1 : ℚ) : ℝ) + (k : ℝ) * (dx / steps),
     ((p.2 : ℚ) : ℝ) + (k : ℝ) * (dy / steps)))

/-- `densify_by_distance(point_list, distance, precision = precision)`:
concatenate the per-segment point rows, append the final original point, and
round everything to `precision` decimals (`np.round`).  (The source indexes
`points[-1]` and so assumes a nonempty list; the empty case is mapped to the
empty list here.) -/
noncomputable def densify_by_distance (point_list : List Point) (distance : ℚ)
    (precision : ℕ := DEFAULT_PRECISION) : List Point :=
  match point_list with
  | [] => []
  | p0 :: rest =>
    let segs := (p0 :: rest).zip rest
    let chunks := segs.map (fun s => distanceChunk distance s.1 s.2)
    let lastP := (p0 :: rest).getLast (List.cons_ne_nil _ _)
    (chunks.flatten ++ [(((lastP.1 : ℚ) : ℝ), ((lastP.2 : ℚ) : ℝ))]).map
      (fun v => (roundR precision v.1, roundR precision v.2))

theorem segLen_nonneg (p q : Point) : 0 ≤ segLen p q := Real.sqrt_nonneg _

theorem segLen_pos_of_ne (p q : Point) (h : p ≠ q) : 0 < segLen p q := by
  unfold segLen
  apply Real.sqrt_pos.mpr
  have h1 : q.1 - p.1 ≠ 0 ∨ q.2 - p.2 ≠ 0 := by
    by_contra hcon
    push_neg at hcon
    apply h
    have hx : p.1 = q.1 := by linarith [hcon.1]
    have hy : p.2 = q.2 := by linarith [hcon.2]
    exact Prod.ext hx hy
  rcases h1 with h1 | h1
  · have hx : (((q.1 - p.1 : ℚ) : ℝ)) ≠ 0 := by exact_mod_cast h1
    have := sq_pos_of_ne_zero hx
    nlinarith [sq_nonneg (((q.2 - p.2 : ℚ) : ℝ))]
  · have hy : (((q.2 - p.2 : ℚ) : ℝ)) ≠ 0 := by exact_mod_cast h1
    have := sq_pos_of_ne_zero hy
    nlinarith [sq_nonneg (((q.1 - p.1 : ℚ) : ℝ))]

theorem segLen_eq_zero (p : Point) : segLen p p = 0 := by
  unfold segLen
  simp [Real.sqrt_zero]

/-- The number of points a segment contributes is the ceiling of
`length / distance`. -/
theorem distanceChunk_length (distance : ℚ) (p q : Point) :
    (distanceChunk distance p q).length = ⌈segLen p q / (distance : ℝ)⌉₊ := by
  unfold distanceChunk
  rw [List.length_map, List.length_range]

/-- A positive-length segment's chunk starts with the segment's own start
point. -/
theorem distanceChunk_head (distance : ℚ) (p q : Point)
    (hpos : 0 < ⌈segLen p q / (distance : ℝ)⌉₊) :
    (distanceChunk distance p q).head? = some (((p.1 : ℚ) : ℝ), ((p.2 : ℚ) : ℝ)) := by
  simp only [distanceChunk]
  obtain ⟨m, hm⟩ := Nat.exists_eq_succ_of_ne_zero (Nat.pos_iff_ne_zero.mp hpos)
  rw [hm, List.range_succ_eq_map, List.map_cons, List.head?_cons]
  norm_num

/-- Every later point of a chunk lies strictly between the segment's
endpoints: it is `p + t * (q - p)` for some `0 < t < 1`. -/
theorem distanceChunk_strictly_between (distance : ℚ) (p q : Point) (k : ℕ)
    (hk0 : 0 < k) (hk : k < (distanceChunk distance p q).length) :
    ∃ t : ℝ, 0 < t ∧ t < 1 ∧
      (distanceChunk distance p q)[k]? =
        some (((p.1 : ℚ) : ℝ) + t * ((q.1 - p.1 : ℚ) : ℝ),
              ((p.2 : ℚ) : ℝ) + t * ((q.2 - p.2 : ℚ) : ℝ)) := by
  rw [distanceChunk_length] at hk
  have hksteps : (k : ℝ) < segLen p q / (distance : ℝ) := Nat.lt_ceil.mp hk
  have hstepspos : 0 < segLen p q / (distance : ℝ) :=
    lt_of_le_of_lt (by positivity) hksteps
  refine ⟨(k : ℝ) / (segLen p q / (distance : ℝ)), by positivity, ?_, ?_⟩
  · rw [div_lt_one hstepspos]
    exact hksteps
  · simp only [distanceChunk]
    rw [List.getElem?_map, List.getElem?_range hk, Option.map_some']
    refine congrArg some (Prod.ext ?_ ?_) <;> ring

/-! ### Polygon-level densification (`densify.densify_polygon` etc.) -/

/-- `densify_polygon(polygon, factor = ..., distance = ..., precision = ...)`:
raises `ValueError` when both options are set, otherwise densifies the
exterior and every hole ring with the selected strategy, or returns the
polygon unchanged when neither option is set. -/
noncomputable def densify_polygon (polygon : Polygon) (factor : Option ℕ)
    (distance : Option ℚ) (precision : ℕ := DEFAULT_PRECISION) :
    Except String Polygon :=
  if factor.isSome ∧ distance.isSome then
    Except.error "Only one of factor or distance can be specified."
  else
    match factor with
    | some f =>
      Except.ok
        { exterior := densify_by_factor polygon.exterior f precision
          holes := polygon.holes.map (fun h => densify_by_factor h f precision) }
    | none =>
      match distance with
      | some dist =>
        Except.ok
          { exterior := densify_by_distance polygon.exterior dist precision
            holes := polygon.holes.map (fun h => densify_by_distance h dist precision) }
      | none => Except.ok polygon

/-- A list comprehension over a fallible element transform: left-to-right,
the first raised error propagates. -/
def exceptMapList {α β : Type} (f : α → Except String β) :
    List α → Except String (List β)
  | [] => Except.ok []
  | a :: as =>
    match f a with
    | Except.error e => Except.error e
    | Except.ok b => (exceptMapList f as).map (fun bs => b :: bs)

/-- `densify_multipolygon`: densify each member polygon. -/
noncomputable def densify_multipolygon (multipolygon : List Polygon)
    (factor : Option ℕ) (distance : Option ℚ)
    (precision : ℕ := DEFAULT_PRECISION) : Except String (List Polygon) :=
  exceptMapList (fun p => densify_polygon p factor distance precision) multipolygon

/-- `densify_geometry`: dispatch on the geometry kind (the `TypeError` branch
is impossible for the sum type). -/
noncomputable def densify_geometry (geometry : Geometry) (factor : Option ℕ)
    (distance : Option ℚ) (precision : ℕ := DEFAULT_PRECISION) :
    Except String Geometry :=
  match geometry with
  | Geometry.polygon p =>
    (densify_polygon p factor distance precision).map Geometry.polygon
  | Geometry.multipolygon ps =>
    (densify_multipolygon ps factor distance precision).map Geometry.multipolygon

/-! ### External collaborators -/

/-- The external capabilities consumed by the pipeline:
* `vectorize`: `rasterio.features.shapes` — (polygon, region value) pairs of
  the mask's contiguous regions;
* `union`: `shapely.unary_union` on a polygon list;
* `hull`: `.convex_hull` of a geometry (always a single polygon here);
* `transf`: the reprojection engine `rasterio.warp.transform_geom`, applied
  vertex-wise, rounding each output coordinate to the given precision;
* `simpl`: `shapely` `.simplify(tolerance, preserve_topology=False)`. -/
structure Externals where
  vectorize : Mask → Affine → List (Polygon × ℕ)
  union : List Polygon → Geometry
  hull : Geometry → Polygon
  transf : CRS → CRS → ℕ → Point → Point
  simpl : ℚ → Polygon → Polygon

/-- The EPSG:4326 destination hard-wired by `reproject.py`. -/
def EPSG4326 : CRS := 4326

/-! ### Reprojector (`reproject.reproject_polygon` etc.) -/

/-- `reproject_polygon(polygon, crs, precision = precision)`: transform the
polygon to EPSG:4326 with coordinates rounded to `precision`
(`transform_geom`), then drop consecutive duplicate points from the shell and
every hole with `itertools.groupby`. -/
def reproject_polygon (E : Externals) (polygon : Polygon) (crs : CRS)
    (precision : ℕ := DEFAULT_PRECISION) : Polygon :=
  let transformed : Polygon :=
    { exterior := polygon.exterior.map (E.transf crs EPSG4326 precision)
      holes := polygon.holes.map (fun h => h.map (E.transf crs EPSG4326 precision)) }
  { exterior := dedupRing transformed.exterior
    holes := transformed.holes.map dedupRing }

/-- `reproject_multipolygon`: reproject each member polygon. -/
def reproject_multipolygon (E : Externals) (multipolygon : List Polygon)
    (crs : CRS) (precision : ℕ := DEFAULT_PRECISION) : List Polygon :=
  multipolygon.map (fun p => reproject_polygon E p crs precision)

/-- Modelled from the spec: `reproject_geometry` — the Reprojector entry
point called by `footprint.footprint_from_mask` with an explicit source and
destination CRS — is imported by `footprint.py` but its module body is not
under `src/`; per §4.4 it delegates the vertex transform (with rounding to
`precision`) to the external engine per ring and then removes consecutive
duplicate points, exactly as the in-repo variant `reproject_polygon` does
with a hard-wired destination. -/
def reproject_geometry (E : Externals) (geometry : Geometry)
    (source_crs destination_crs : CRS)
    (precision : ℕ := DEFAULT_PRECISION) : Geometry :=
  match geometry with
  | Geometry.polygon p =>
    let transformed : Polygon :=
      { exterior := p.exterior.map (E.transf source_crs destination_crs precision)
        holes := p.holes.map (fun h => h.map (E.transf source_crs destination_crs precision)) }
    Geometry.polygon
      { exterior := dedupRing transformed.exterior
        holes := transformed.holes.map dedupRing }
  | Geometry.multipolygon ps =>
    Geometry.multipolygon (ps.map (fun p =>
      let transformed : Polygon :=
        { exterior := p.exterior.map (E.transf source_crs destination_crs precision)
          holes := p.holes.map (fun h => h.map (E.transf source_crs destination_crs precision)) }
      { exterior := dedupRing transformed.exterior
        holes := transformed.holes.map dedupRing }))

/-! ### Simplifier (`simplify.simplify_polygon` etc.) -/

/-- `simplify_polygon(polygon, tolerance = tolerance)`: delegate to the
external `polygon.simplify(tolerance, preserve_topology=False)` when a
tolerance is given, identity otherwise.  No re-orientation is performed. -/
def simplify_polygon (E : Externals) (polygon : Polygon)
    (tolerance : Option ℚ) : Polygon :=
  match tolerance with
  | some t => E.simpl t polygon
  | none => polygon

/-- `simplify_multipolygon`: simplify each member polygon. -/
def simplify_multipolygon (E : Externals) (multipolygon : List Polygon)
    (tolerance : Option ℚ) : List Polygon :=
  multipolygon.map (fun p => simplify_polygon E p tolerance)

/-- Modelled from the spec: `simplify_geometry` — the Simplifier entry point
used by `footprint.py` — is imported from `simplify.py` whose in-repo body
names it `simplify_extent`; same dispatch over the geometry sum type. -/
def simplify_geometry (E : Externals) (geometry : Geometry)
    (tolerance : Option ℚ) : Geometry :=
  match geometry with
  | Geometry.polygon p => Geometry.polygon (simplify_polygon E p tolerance)
  | Geometry.multipolygon ps =>
    Geometry.multipolygon (simplify_multipolygon E ps tolerance)

/-! ### Mask-to-Geometry Extractor (`mask.get_mask_extent`) -/

/-- `get_mask_extent(mask, transform = ..., convex_hull = ..., holes = ...)`:
vectorize the mask keeping the 255-valued regions; `None` when there are
none; when neither `holes` nor `convex_hull` is requested, rebuild each
polygon from its exterior only and union the results; orient every polygon;
wrap one polygon as a Polygon, several as a MultiPolygon; for `convex_hull`
replace the result with the oriented convex hull. -/
def get_mask_extent (E : Externals) (mask : Mask) (transform : Affine)
    (convex_hull : Bool := false) (holes : Bool := true) : Option Geometry :=
  let data_polygons :=
    (E.vectorize mask transform).filterMap
      (fun pv => if pv.2 = 255 then some pv.1 else none)
  if data_polygons.isEmpty then none
  else
    let data_polygons :=
      if ¬holes ∧ ¬convex_hull then
        let stripped := data_polygons.map (fun p => { exterior := p.exterior, holes := [] })
        match E.union stripped with
        | Geometry.polygon p => [p]
        | Geometry.multipolygon ps => ps
      else data_polygons
    let data_polygons := data_polygons.map orient
    let data_extent :=
      match data_polygons with
      | [p] => Geometry.polygon p
      | ps => Geometry.multipolygon ps
    some (if convex_hull then Geometry.polygon (orient (E.hull data_extent))
      else data_extent)

/-- Modelled from the spec: `get_mask_geometry` — the Extractor name imported
by `footprint.py` — is not defined under `src/`; the in-repo variant is
`mask.get_mask_extent` with the identical body (§9 treats the historical
variants as one design). -/
def get_mask_geometry (E : Externals) (mask : Mask) (transform : Affine)
    (convex_hull : Bool := false) (holes : Bool := false) : Option Geometry :=
  get_mask_extent E mask transform convex_hull holes

/-! ### Footprint Orchestrator (`footprint.footprint_from_mask` etc.) -/

/-- A GeoJSON-style mapping `{type, coordinates}` (`shapely.geometry.mapping`). -/
inductive GeoJSON where
  | polygonJSON (coordinates : List Ring)
  | multiPolygonJSON (coordinates : List (List Ring))
deriving DecidableEq, Repr

/-- `shapely.geometry.mapping`: serialize a geometry as its
`{type, coordinates}` mapping (exterior first, then the holes). -/
def mapping : Geometry → GeoJSON
  | Geometry.polygon p => GeoJSON.polygonJSON (p.exterior :: p.holes)
  | Geometry.multipolygon ps =>
    GeoJSON.multiPolygonJSON (ps.map (fun p => p.exterior :: p.holes))

/-- `footprint_from_mask(mask, transform, source_crs, ...)`: extract the
geometry from the mask (returning `None` when there is none), then densify,
reproject to `destination_crs` at `precision`, simplify, and serialize. -/
noncomputable def footprint_from_mask (E : Externals) (mask : Mask)
    (transform : Affine) (source_crs : CRS)
    (destination_crs : CRS := EPSG4326)
    (precision : ℕ := DEFAULT_PRECISION)
    (densify_factor : Option ℕ := none)
    (densify_distance : Option ℚ := none)
    (simplify_tolerance : Option ℚ := none)
    (convex_hull : Bool := false)
    (holes : Bool := false) : Except String (Option GeoJSON) :=
  match get_mask_geometry E mask transform convex_hull holes with
  | none => Except.ok none
  | some geometry =>
    match densify_geometry geometry densify_factor densify_distance with
    | Except.error e => Except.error e
    | Except.ok densified =>
      let reprojected :=
        reproject_geometry E densified source_crs destination_crs precision
      let simplified := simplify_geometry E reprojected simplify_tolerance
      Except.ok (some (mapping simplified))

/-- `footprint_from_data(data, transform, source_crs, ...)`: build the mask
from the pixel array and delegate to `footprint_from_mask`. -/
noncomputable def footprint_from_data (E : Externals) (data : DataArray)
    (transform : Affine) (source_crs : CRS)
    (destination_crs : CRS := EPSG4326)
    (nodata : Option Val := none)
    (precision : ℕ := DEFAULT_PRECISION)
    (densify_factor : Option ℕ := none)
    (densify_distance : Option ℚ := none)
    (simplify_tolerance : Option ℚ := none)
    (convex_hull : Bool := false)
    (holes : Bool := false) : Except String (Option GeoJSON) :=
  footprint_from_mask E (create_mask data nodata) transform source_crs
    destination_crs precision densify_factor densify_distance
    simplify_tolerance convex_hull holes

/-! ### Raster reader entry point (`footprint.footprint_from_rasterio_reader`) -/

/-- The external raster reader (`rasterio.io.DatasetReader`): band indexes,
per-band nodata values, spatial shape, transform, CRS, and the pixel /
validity-mask accessors. -/
structure RasterReader where
  indexes : List ℕ
  nodatavals : List (Option Val)
  rows : ℕ
  cols : ℕ
  transform : Affine
  crs : CRS
  read : List ℕ → List (List (List Val))
  read_masks : List ℕ → List Mask
  dataset_mask : Mask

/-- `reader.nodata`: the first band's nodata value. -/
def readerNodata (r : RasterReader) : Option Val :=
  (r.nodatavals.head?).getD none

/-- Python truthiness of the `bands` argument: `not bands` is true for
`None` and for the empty list. -/
def bandsEmpty (bands : Option (List ℕ)) : Bool :=
  match bands with
  | none => true
  | some [] => true
  | some (_ :: _) => false

/-- The multi-band branch: `np.sum(read_masks, axis=0, dtype=np.uint8)`
followed by `mask[mask > 0] = 255` (a uint8 — mod 256 — sum). -/
def orMasks (ms : List Mask) : Mask :=
  let rows := ms.headI.length
  let cols := ms.headI.headI.length
  (List.range rows).map (fun rr => (List.range cols).map (fun cc =>
    let s := ((ms.map (fun m => (m.getD rr []).getD cc 0)).sum) % 256
    if s > 0 then 255 else 0))

/-- Lines 297–321 of `footprint.py`: validate the band count and the nodata
override, then build the mask (whole-raster for `with_nodata`; the reader's
own validity masks when the override is absent or equals `reader.nodata`;
otherwise `create_mask` over the pixels read from the selected bands with
the override as nodata). -/
def resolveReaderMask (r : RasterReader) (nodata : Option Val)
    (bands : Option (List ℕ)) (with_nodata : Bool) : Except String Mask :=
  if r.indexes.isEmpty then
    Except.error "Raster footprint cannot be computed for an asset with no bands."
  else if nodata.isSome ∧ r.nodatavals.dedup.length ≠ 1 then
    Except.error "When specifying a nodata value, all raster bands must have the same nodata value."
  else Except.ok (
    if with_nodata then List.replicate r.rows (List.replicate r.cols 255)
    else if (match nodata with
      | none => true
      | some v =>
        match readerNodata r with
        | some w => valEq v w
        | none => false) then
      (match bands with
        | none => r.dataset_mask
        | some [] => r.dataset_mask
        | some [b] => (r.read_masks [b]).headI
        | some bs => orMasks (r.read_masks bs))
    else
      let bs := if bandsEmpty bands then r.indexes else bands.getD []
      create_mask (DataArray.three (r.read bs)) nodata)

/-- `footprint_from_rasterio_reader(reader, ...)`: resolve the mask from the
reader (validating bands and the nodata override), then delegate to
`footprint_from_mask` with the reader's transform and CRS. -/
noncomputable def footprint_from_rasterio_reader (E : Externals)
    (r : RasterReader)
    (destination_crs : CRS := EPSG4326)
    (nodata : Option Val := none)
    (precision : ℕ := DEFAULT_PRECISION)
    (densify_factor : Option ℕ := none)
    (densify_distance : Option ℚ := none)
    (simplify_tolerance : Option ℚ := none)
    (convex_hull : Bool := false)
    (holes : Bool := false)
    (bands : Option (List ℕ) := none)
    (with_nodata : Bool := false) : Except String (Option GeoJSON) :=
  match resolveReaderMask r nodata bands with_nodata with
  | Except.error e => Except.error e
  | Except.ok mask =>
    footprint_from_mask E mask r.transform r.crs destination_crs precision
      densify_factor densify_distance simplify_tolerance convex_hull holes

/-! ### Concrete instances used by witnesses and counterexamples -/

/-- Externals whose vectorizer finds no regions and whose engines are
identities (used to drive the orchestration on concrete inputs). -/
def trivialExternals : Externals :=
  { vectorize := fun _ _ => []
    union := fun _ => Geometry.multipolygon []
    hull := fun _ => { exterior := [], holes := [] }
    transf := fun _ _ _ p => p
    simpl := fun _ p => p }

/-- Externals whose reprojection engine is the identity transform followed by
rounding to the requested precision — the spec's own account of the engine
when source and destination CRS coincide (§4.4: "acts as identity up to
rounding"). -/
def roundingExternals : Externals :=
  { vectorize := fun _ _ => []
    union := fun _ => Geometry.multipolygon []
    hull := fun _ => { exterior := [], holes := [] }
    transf := fun _ _ prec p => roundPoint prec p
    simpl := fun _ p => p }

/-- A counter-clockwise unit square. -/
def squarePoly : Polygon :=
  { exterior := [(0, 0), (1, 0), (1, 1), (0, 1), (0, 0)], holes := [] }

/-- Externals whose vectorizer reports one 255-valued region (the square). -/
def oneRegionExternals : Externals :=
  { vectorize := fun _ _ => [(squarePoly, 255)]
    union := fun ps => Geometry.multipolygon ps
    hull := fun _ => squarePoly
    transf := fun _ _ _ p => p
    simpl := fun _ p => p }

/-! ### Claim theorems -/

/-- C1: `footprint_from_mask` returns exactly the GeoJSON-style mapping
obtained by applying, in this fixed order, mask-to-geometry extraction, then
densification, then reprojection to the destination CRS rounded to the given
precision, then simplification; and it returns `None` if and only if the
extraction step finds no valid-data region. -/
theorem c1_footprint_pipeline_order (E : Externals) (mask : Mask)
    (transform : Affine) (source_crs destination_crs : CRS) (precision : ℕ)
    (df : Option ℕ) (dd : Option ℚ) (st : Option ℚ) (ch ho : Bool) :
    (footprint_from_mask E mask transform source_crs destination_crs precision
        df dd st ch ho
      = match get_mask_geometry E mask transform ch ho with
        | none => Except.ok none
        | some g =>
          (densify_geometry g df dd).map (fun densified =>
            some (mapping (simplify_geometry E
              (reproject_geometry E densified source_crs destination_crs precision)
              st)))) ∧
    (footprint_from_mask E mask transform source_crs destination_crs precision
        df dd st ch ho = Except.ok none
      ↔ get_mask_geometry E mask transform ch ho = none) := by
  constructor
  · cases hg : get_mask_geometry E mask transform ch ho with
    | none => simp [footprint_from_mask, hg]
    | some g =>
      cases hd : densify_geometry g df dd with
      | error e => simp [footprint_from_mask, hg, hd, Except.map]
      | ok densified => simp [footprint_from_mask, hg, hd, Except.map]
  · cases hg : get_mask_geometry E mask transform ch ho with
    | none => simp [footprint_from_mask, hg]
    | some g =>
      cases hd : densify_geometry g df dd with
      | error e => simp [footprint_from_mask, hg, hd]
      | ok densified => simp [footprint_from_mask, hg, hd]

/-- C6 (amended): calling the densifier with both `factor` and `distance` set
raises the mutual-exclusivity error — for a multipolygon provided it has at
least one member polygon, since `densify_multipolygon` of an empty
multipolygon performs no per-polygon call and returns it unchanged — and
calling it with neither set returns the input unchanged. -/
theorem c6_densify_mutual_exclusivity :
    (∀ (p : Polygon) (f : ℕ) (d : ℚ) (prec : ℕ),
      densify_polygon p (some f) (some d) prec
        = Except.error "Only one of factor or distance can be specified.") ∧
    (∀ (mp : List Polygon) (f : ℕ) (d : ℚ) (prec : ℕ), mp ≠ [] →
      densify_multipolygon mp (some f) (some d) prec
        = Except.error "Only one of factor or distance can be specified.") ∧
    (∀ (p : Polygon) (prec : ℕ), densify_polygon p none none prec = Except.ok p) ∧
    (∀ (mp : List Polygon) (prec : ℕ),
      densify_multipolygon mp none none prec = Except.ok mp) := by
  have hboth : ∀ (p : Polygon) (f : ℕ) (d : ℚ) (prec : ℕ),
      densify_polygon p (some f) (some d) prec
        = Except.error "Only one of factor or distance can be specified." := by
    intro p f d prec
    simp [densify_polygon]
  have hnone : ∀ (p : Polygon) (prec : ℕ),
      densify_polygon p none none prec = Except.ok p := by
    intro p prec
    simp [densify_polygon]
  refine ⟨hboth, ?_, hnone, ?_⟩
  · intro mp f d prec hne
    cases mp with
    | nil => exact absurd rfl hne
    | cons p rest =>
      show exceptMapList _ (p :: rest) = _
      unfold exceptMapList
      rw [hboth]
  · intro mp prec
    induction mp with
    | nil => rfl
    | cons p rest ih =>
      show exceptMapList _ (p :: rest) = _
      unfold exceptMapList
      rw [hnone]
      show (densify_multipolygon rest none none prec).map _ = _
      rw [ih]
      rfl

/-- C6 witness: the both-set error on a concrete one-member multipolygon. -/
theorem c6_densify_mutual_exclusivity_witness :
    densify_multipolygon [{ exterior := [], holes := [] }] (some 2) (some 1) 7
      = Except.error "Only one of factor or distance can be specified." :=
  c6_densify_mutual_exclusivity.2.1 [{ exterior := [], holes := [] }] 2 1 7
    (List.cons_ne_nil _ _)

/-- C6 counterexample: with both `factor` and `distance` set, an empty
multipolygon is returned unchanged instead of raising the InvalidArgument
error the claim promises for every MultiPolygon. -/
theorem c6_densify_empty_multipolygon_no_error :
    densify_multipolygon ([] : List Polygon) (some 2) (some 1) 7
      = Except.ok ([] : List Polygon) := rfl

/-- C8: a mask without any 255 cell yields `None` from the extractor (given
that the vectorizer only reports region values that occur in the mask), and
`footprint_from_mask` consequently returns `None` as well. -/
theorem c8_no_footprint (E : Externals) (mask : Mask) (transform : Affine)
    (ch ho : Bool) (source_crs destination_crs : CRS) (precision : ℕ)
    (df : Option ℕ) (dd : Option ℚ) (st : Option ℚ)
    (hV : ∀ pv ∈ E.vectorize mask transform, ∃ row ∈ mask, pv.2 ∈ row)
    (hmask : ∀ row ∈ mask, ∀ v ∈ row, v ≠ 255) :
    get_mask_extent E mask transform ch ho = none ∧
    footprint_from_mask E mask transform source_crs destination_crs precision
      df dd st ch ho = Except.ok none := by
  have hfilter : (E.vectorize mask transform).filterMap
      (fun pv => if pv.2 = 255 then some pv.1 else none) = [] := by
    rw [List.filterMap_eq_nil_iff]
    intro pv hpv
    have h255 : pv.2 ≠ 255 := by
      intro heq
      obtain ⟨row, hrow, hvin⟩ := hV pv hpv
      exact hmask row hrow pv.2 hvin heq
    simp [h255]
  have hext : get_mask_extent E mask transform ch ho = none := by
    unfold get_mask_extent
    rw [hfilter]
    simp
  refine ⟨hext, ?_⟩
  have hgeom : get_mask_geometry E mask transform ch ho = none := hext
  unfold footprint_from_mask
  rw [hgeom]

/-- C8 witness: the all-zero 2×2 mask under the trivial vectorizer. -/
theorem c8_no_footprint_witness :
    get_mask_extent trivialExternals [[0, 0], [0, 0]] ⟨1, 0, 0, 0, 1, 0⟩
        false false = none ∧
    footprint_from_mask trivialExternals [[0, 0], [0, 0]] ⟨1, 0, 0, 0, 1, 0⟩
      32631 EPSG4326 7 none none none false false = Except.ok none :=
  c8_no_footprint trivialExternals [[0, 0], [0, 0]] ⟨1, 0, 0, 0, 1, 0⟩
    false false 32631 EPSG4326 7 none none none
    (by intro pv hpv; simp [trivialExternals] at hpv)
    (by decide)

set_option maxRecDepth 4000 in
/-- C3: `create_mask` sums the per-band 0/1 validity indicators with a uint8
accumulator (`np.sum(mask, axis=0, dtype=np.uint8)`), which wraps modulo 256:
on a 256-band array whose every band holds 1 with nodata 0, every band is
valid at the single pixel, yet the produced mask cell is 0 instead of the
claimed (and documented) 255. -/
theorem c3_create_mask_uint8_overflow :
    create_mask (DataArray.three (List.replicate 256 [[Val.num 1]]))
        (some (Val.num 0)) = [[0]] ∧
    validCell (Val.num 0) (Val.num 1) = true ∧
    create_mask (DataArray.three (List.replicate 255 [[Val.num 1]]))
        (some (Val.num 0)) = [[255]] := by
  refine ⟨?_, rfl, ?_⟩ <;> decide

/-- C9 (amended): with at least one band, nodata resolution raises the
InvalidArgument error exactly when an explicit override is supplied and the
per-band nodata values are not all identical; the override's own value is
never compared against the bands' (uniform) nodata value for this check, so
an override different from the uniform per-band value proceeds without
error. -/
theorem c9_nodata_override_check (r : RasterReader) (nodata : Option Val)
    (bands : Option (List ℕ)) (w : Bool) (hbands : r.indexes ≠ []) :
    (∃ m, resolveReaderMask r nodata bands w = Except.ok m)
      ↔ ¬(nodata.isSome ∧ r.nodatavals.dedup.length ≠ 1) := by
  unfold resolveReaderMask
  rw [if_neg (by simpa using hbands)]
  by_cases hcond : nodata.isSome = true ∧ r.nodatavals.dedup.length ≠ 1
  · rw [if_pos hcond]
    simp [hcond]
  · rw [if_neg hcond]
    simpa using hcond

/-- C9 witness: with a uniform per-band nodata and an override, resolution
succeeds (the right-to-left direction at a concrete reader). -/
theorem c9_nodata_override_check_witness :
    (∃ m, resolveReaderMask
      { indexes := [1, 2]
        nodatavals := [some (Val.num 0), some (Val.num 0)]
        rows := 1, cols := 1
        transform := ⟨1, 0, 0, 0, 1, 0⟩
        crs := 32631
        read := fun _ => [[[Val.num 0]], [[Val.num 0]]]
        read_masks := fun _ => [[[255]], [[255]]]
        dataset_mask := [[255]] }
      (some (Val.num 5)) none false = Except.ok m) :=
  (c9_nodata_override_check _ (some (Val.num 5)) none false
    (by simp)).mpr (by decide)

/-- C9 counterexample: a reader whose two bands share nodata 0, called with
the explicit override 5 — which does not match the uniform per-band nodata
value — does not raise: the pipeline proceeds (here to a `None` footprint
under the trivial vectorizer).  The claim predicts an InvalidArgument error
for this input. -/
theorem c9_mismatched_override_accepted :
    footprint_from_rasterio_reader trivialExternals
      { indexes := [1, 2]
        nodatavals := [some (Val.num 0), some (Val.num 0)]
        rows := 1, cols := 1
        transform := ⟨1, 0, 0, 0, 1, 0⟩
        crs := 32631
        read := fun _ => [[[Val.num 0]], [[Val.num 0]]]
        read_masks := fun _ => [[[255]], [[255]]]
        dataset_mask := [[255]] }
      EPSG4326 (some (Val.num 5)) 7 none none none false false none false
      = Except.ok none ∧
    valEq (Val.num 5) (Val.num 0) = false := by
  constructor
  · rfl
  · rfl

/-- C2 (amended): the Extractor canonicalizes winding — every geometry
`get_mask_extent` returns satisfies the invariant (exterior counter-clockwise
i.e. nonnegative signed area, holes clockwise i.e. nonpositive signed area),
because every produced polygon passes through `orient`.  The Reprojector and
Simplifier perform no re-orientation, so their outputs keep the invariant
only when the external engine preserves orientation (see the
counterexample). -/
theorem c2_extractor_winding (E : Externals) (mask : Mask) (transform : Affine)
    (ch ho : Bool) (g : Geometry)
    (h : get_mask_extent E mask transform ch ho = some g) : windingOK g := by
  have horient : ∀ (l : List Polygon) (x : Polygon), x ∈ l.map orient → windingOKP x := by
    intro l x hx
    obtain ⟨y, _, rfl⟩ := List.mem_map.mp hx
    exact windingOKP_orient y
  simp only [get_mask_extent] at h
  by_cases hemp : ((E.vectorize mask transform).filterMap
      (fun pv => if pv.2 = 255 then some pv.1 else none)).isEmpty
  · rw [if_pos hemp] at h
    exact absurd h (by simp)
  · rw [if_neg hemp] at h
    obtain rfl := Option.some.inj h
    cases ch with
    | true =>
      show windingOK (if true = true then _ else _)
      rw [if_pos rfl]
      exact windingOKP_orient _
    | false =>
      show windingOK (if false = true then _ else _)
      rw [if_neg (by simp)]
      cases hL : ((if ¬ho = true ∧ ¬false = true then
          match E.union (((E.vectorize mask transform).filterMap
              (fun pv => if pv.2 = 255 then some pv.1 else none)).map
            (fun p => { exterior := p.exterior, holes := [] })) with
          | Geometry.polygon p => [p]
          | Geometry.multipolygon ps => ps
        else ((E.vectorize mask transform).filterMap
          (fun pv => if pv.2 = 255 then some pv.1 else none))).map orient) with
      | nil =>
        intro q hq
        exact absurd hq (by simp)
      | cons a as =>
        cases as with
        | nil =>
          show windingOKP a
          exact horient _ a (by rw [hL]; exact List.mem_cons_self a [])
        | cons b bs =>
          intro q hq
          exact horient _ q (by rw [hL]; exact hq)

/-- C2 witness: a concrete extraction whose result satisfies the winding
invariant. -/
theorem c2_extractor_winding_witness : windingOK (Geometry.polygon squarePoly) :=
  c2_extractor_winding oneRegionExternals [[255]] ⟨1, 0, 0, 0, 1, 0⟩ false true
    (Geometry.polygon squarePoly) (by
      have hsq : signedArea2 squarePoly.exterior ≥ 0 := by
        norm_num [squarePoly, signedArea2_cons_cons, signedArea2_single, cross]
      have horq : orient squarePoly = squarePoly := by
        unfold orient
        rw [if_pos hsq]
        show ({ exterior := squarePoly.exterior, holes := [] } : Polygon) = squarePoly
        rfl
      simp [get_mask_extent, oneRegionExternals, horq])

/-- C2 counterexample: the claim also asserts the winding invariant for
every polygon produced by the reprojector, but `reproject_polygon` performs
no re-orientation, and the engine's rounding (here the spec's identity
transform at precision 7, the default) flips a thin counter-clockwise sliver
to a strictly clockwise exterior. -/
theorem c2_reproject_breaks_winding :
    windingOKP { exterior := [((0 : ℚ), (0 : ℚ)), (1/10^7, 6/10^8),
        (2/10^7, 14/10^8), (0, 0)], holes := [] } ∧
    ¬ windingOKP (reproject_polygon roundingExternals
      { exterior := [((0 : ℚ), (0 : ℚ)), (1/10^7, 6/10^8),
          (2/10^7, 14/10^8), (0, 0)], holes := [] } 4326 7) := by
  have hr0 : roundQ 7 (0 : ℚ) = 0 := by norm_num [roundQ, roundHalfEvenQ]
  have hr1 : roundQ 7 (1/10^7 : ℚ) = 1/10^7 := by norm_num [roundQ, roundHalfEvenQ]
  have hr6 : roundQ 7 (6/10^8 : ℚ) = 1/10^7 := by norm_num [roundQ, roundHalfEvenQ]
  have hr2 : roundQ 7 (2/10^7 : ℚ) = 2/10^7 := by norm_num [roundQ, roundHalfEvenQ]
  have hr14 : roundQ 7 (14/10^8 : ℚ) = 1/10^7 := by norm_num [roundQ, roundHalfEvenQ]
  have hrp : reproject_polygon roundingExternals
      { exterior := [((0 : ℚ), (0 : ℚ)), (1/10^7, 6/10^8),
          (2/10^7, 14/10^8), (0, 0)], holes := [] } 4326 7
      = { exterior := [((0 : ℚ), (0 : ℚ)), (1/10^7, 1/10^7),
          (2/10^7, 1/10^7), (0, 0)], holes := [] } := by
    simp only [reproject_polygon, roundingExternals, roundPoint, List.map_cons,
      List.map_nil, hr0, hr1, hr6, hr2, hr14]
    norm_num [dedupRing, dedupAux, Prod.ext_iff]
  constructor
  · constructor
    · norm_num [signedArea2_cons_cons, signedArea2_single, cross]
    · intro h hm
      exact absurd hm (by simp)
  · rw [hrp]
    intro hwind
    have hneg := hwind.1
    norm_num [signedArea2_cons_cons, signedArea2_single, cross] at hneg

/-- C7: after reprojection every ring has no two consecutive equal points,
the dedup only removes points (a sublist of the transformed ring) and is the
identity on rings already free of consecutive duplicates (so non-consecutive
duplicates stay), and every ring stays closed (first point = last point). -/
theorem c7_reproject_dedup (E : Externals) (p : Polygon) (crs : CRS) (prec : ℕ)
    (hext : p.exterior.head? = p.exterior.getLast?)
    (hholes : ∀ h ∈ p.holes, h.head? = h.getLast?) :
    (List.Chain' (· ≠ ·) (reproject_polygon E p crs prec).exterior ∧
      ∀ h ∈ (reproject_polygon E p crs prec).holes, List.Chain' (· ≠ ·) h) ∧
    ((reproject_polygon E p crs prec).exterior.head?
        = (reproject_polygon E p crs prec).exterior.getLast? ∧
      ∀ h ∈ (reproject_polygon E p crs prec).holes, h.head? = h.getLast?) ∧
    List.Sublist (reproject_polygon E p crs prec).exterior
      (p.exterior.map (E.transf crs EPSG4326 prec)) ∧
    (∀ l : Ring, List.Chain' (· ≠ ·) l → dedupRing l = l) := by
  have hrepr : reproject_polygon E p crs prec =
      { exterior := dedupRing (p.exterior.map (E.transf crs EPSG4326 prec))
        holes := p.holes.map (fun h => dedupRing (h.map (E.transf crs EPSG4326 prec))) } := by
    simp [reproject_polygon]
  rw [hrepr]
  refine ⟨⟨chain'_ne_dedupRing _, ?_⟩, ⟨?_, ?_⟩, dedupRing_sublist _, dedupRing_of_chain'⟩
  · intro h hm
    obtain ⟨h0, _, rfl⟩ := List.mem_map.mp hm
    exact chain'_ne_dedupRing _
  · rw [dedupRing_head?, dedupRing_getLast?, List.head?_map, List.getLast?_map, hext]
  · intro h hm
    obtain ⟨h0, hh0, rfl⟩ := List.mem_map.mp hm
    rw [dedupRing_head?, dedupRing_getLast?, List.head?_map, List.getLast?_map,
      hholes h0 hh0]

/-- C7 witness: a ring with a consecutive duplicate vertex under the
identity-plus-rounding engine. -/
theorem c7_reproject_dedup_witness :
    (List.Chain' (· ≠ ·) (reproject_polygon roundingExternals
        { exterior := [((0 : ℚ), (0 : ℚ)), (1, 0), (1, 0), (1, 1), (0, 1), (0, 0)],
          holes := [] } 32631 7).exterior ∧
      ∀ h ∈ (reproject_polygon roundingExternals
        { exterior := [((0 : ℚ), (0 : ℚ)), (1, 0), (1, 0), (1, 1), (0, 1), (0, 0)],
          holes := [] } 32631 7).holes, List.Chain' (· ≠ ·) h) ∧
    ((reproject_polygon roundingExternals
        { exterior := [((0 : ℚ), (0 : ℚ)), (1, 0), (1, 0), (1, 1), (0, 1), (0, 0)],
          holes := [] } 32631 7).exterior.head?
        = (reproject_polygon roundingExternals
        { exterior := [((0 : ℚ), (0 : ℚ)), (1, 0), (1, 0), (1, 1), (0, 1), (0, 0)],
          holes := [] } 32631 7).exterior.getLast? ∧
      ∀ h ∈ (reproject_polygon roundingExternals
        { exterior := [((0 : ℚ), (0 : ℚ)), (1, 0), (1, 0), (1, 1), (0, 1), (0, 0)],
          holes := [] } 32631 7).holes, h.head? = h.getLast?) ∧
    List.Sublist (reproject_polygon roundingExternals
        { exterior := [((0 : ℚ), (0 : ℚ)), (1, 0), (1, 0), (1, 1), (0, 1), (0, 0)],
          holes := [] } 32631 7).exterior
      (([((0 : ℚ), (0 : ℚ)), (1, 0), (1, 0), (1, 1), (0, 1), (0, 0)] : Ring).map
        (roundingExternals.transf 32631 EPSG4326 7)) ∧
    (∀ l : Ring, List.Chain' (· ≠ ·) l → dedupRing l = l) :=
  c7_reproject_dedup roundingExternals
    { exterior := [((0 : ℚ), (0 : ℚ)), (1, 0), (1, 0), (1, 1), (0, 1), (0, 0)],
      holes := [] } 32631 7 (by decide) (by decide)

/-- C4 (amended): for a nonempty point list and factor `F ≥ 1`,
`densify_by_factor` returns exactly `F*(N-1)+1` points; the point at index
`j` is the linear interpolation by parameter index between the enclosing
original pair, rounded to `precision` decimals; in particular every original
point appears at index `i*F` rounded to `precision` (not unchanged: a
coordinate with more than `precision` decimals is altered by the rounding). -/
theorem c4_densify_by_factor_spec (pts : List Point) (F prec : ℕ)
    (hF : 1 ≤ F) (hne : pts ≠ []) :
    (densify_by_factor pts F prec).length = F * (pts.length - 1) + 1 ∧
    (∀ j, j ≤ (pts.length - 1) * F →
      (densify_by_factor pts F prec)[j]? = some (roundPoint prec (lerpAt pts F j))) ∧
    (∀ i, i < pts.length →
      (densify_by_factor pts F prec)[i * F]?
        = some (roundPoint prec (pts.getD i (0, 0)))) := by
  have hF0 : 0 < F := hF
  have hdef : densify_by_factor pts F prec
      = (List.range ((pts.length - 1) * F + 1)).map
        (fun (j : ℕ) => (roundQ prec (npInterp (j : ℚ) (sampleGrid F (pts.map Prod.fst))),
          roundQ prec (npInterp (j : ℚ) (sampleGrid F (pts.map Prod.snd))))) := by
    cases pts with
    | nil => exact absurd rfl hne
    | cons p0 rest => rfl
  have hjclause : ∀ j, j ≤ (pts.length - 1) * F →
      (densify_by_factor pts F prec)[j]? = some (roundPoint prec (lerpAt pts F j)) := by
    intro j hj
    rw [hdef, List.getElem?_map, List.getElem?_range (by omega), Option.map_some']
    have hxne : pts.map Prod.fst ≠ [] := by
      intro hcon
      exact hne (List.map_eq_nil_iff.mp hcon)
    have hyne : pts.map Prod.snd ≠ [] := by
      intro hcon
      exact hne (List.map_eq_nil_iff.mp hcon)
    have hjx : j ≤ ((pts.map Prod.fst).length - 1) * F := by
      rwa [List.length_map]
    have hjy : j ≤ ((pts.map Prod.snd).length - 1) * F := by
      rwa [List.length_map]
    rw [npInterp_sampleGrid F hF0 _ hxne j hjx, npInterp_sampleGrid F hF0 _ hyne j hjy]
    rfl
  refine ⟨?_, hjclause, ?_⟩
  · rw [hdef, List.length_map, List.length_range, Nat.mul_comm]
  · intro i hi
    have hij : i * F ≤ (pts.length - 1) * F :=
      Nat.mul_le_mul_right F (by omega)
    rw [hjclause (i * F) hij]
    have hp : pts[i]? = some (pts.getD i (0, 0)) := by
      rw [List.getElem?_eq_getElem hi, List.getD_eq_getElem pts (0, 0) hi]
    have hcomp : ∀ (f : Point → ℚ), gridVal F (pts.map f) (i * F)
        = f (pts.getD i (0, 0)) := by
      intro f
      unfold gridVal
      rw [Nat.mul_div_cancel _ hF0, Nat.mul_mod_left, List.getElem?_map,
        List.getElem?_map, hp, Option.map_some']
      cases hnext : pts[i + 1]? with
      | none =>
        rw [Option.map_none']
      | some pnext =>
        rw [Option.map_some']
        show f (pts.getD i (0, 0)) + ((0 : ℕ) : ℚ) / F * _ = f (pts.getD i (0, 0))
        norm_num
    have hlerp : lerpAt pts F (i * F) = pts.getD i (0, 0) := by
      unfold lerpAt
      rw [hcomp Prod.fst, hcomp Prod.snd]
    rw [hlerp]

/-- C4 witness: the factor densifier spec applied at a concrete two-point
list with factor 2. -/
theorem c4_densify_by_factor_spec_witness :
    (densify_by_factor [((0 : ℚ), (0 : ℚ)), (1, 1)] 2 7).length = 2 * (2 - 1) + 1 ∧
    (∀ j, j ≤ (2 - 1) * 2 →
      (densify_by_factor [((0 : ℚ), (0 : ℚ)), (1, 1)] 2 7)[j]?
        = some (roundPoint 7 (lerpAt [((0 : ℚ), (0 : ℚ)), (1, 1)] 2 j))) ∧
    (∀ i, i < 2 →
      (densify_by_factor [((0 : ℚ), (0 : ℚ)), (1, 1)] 2 7)[i * 2]?
        = some (roundPoint 7 (([((0 : ℚ), (0 : ℚ)), (1, 1)] : List Point).getD i (0, 0)))) :=
  c4_densify_by_factor_spec [((0 : ℚ), (0 : ℚ)), (1, 1)] 2 7 (by norm_num)
    (by simp)

/-- C4 counterexample: with the default precision 7, an original coordinate
needing 8 decimals does not appear unchanged in the densified output — the
rounding alters it (here factor 1, whose output is just the rounded input). -/
theorem c4_rounding_changes_original :
    densify_by_factor [((1/10^8 : ℚ), (0 : ℚ)), (1, 0)] 1 7 = [(0, 0), (1, 0)] ∧
    ((1/10^8 : ℚ), (0 : ℚ)) ∉ densify_by_factor [((1/10^8 : ℚ), (0 : ℚ)), (1, 0)] 1 7 := by
  have hround0 : roundQ 7 (1/10^8 : ℚ) = 0 := by
    norm_num [roundQ, roundHalfEvenQ]
  have hround1 : roundQ 7 (1 : ℚ) = 1 := by
    norm_num [roundQ, roundHalfEvenQ]
  have hroundz : roundQ 7 (0 : ℚ) = 0 := by
    norm_num [roundQ, roundHalfEvenQ]
  have hgx : sampleGrid 1 [(1/10^8 : ℚ), 1] = [((0 : ℚ), (1/10^8 : ℚ)), (1, 1)] := by
    unfold sampleGrid
    norm_num [List.range_succ]
  have hgy : sampleGrid 1 [(0 : ℚ), 0] = [((0 : ℚ), (0 : ℚ)), (1, 0)] := by
    unfold sampleGrid
    norm_num [List.range_succ]
  have hdef : densify_by_factor [((1/10^8 : ℚ), (0 : ℚ)), (1, 0)] 1 7
      = (List.range 2).map (fun (j : ℕ) =>
        (roundQ 7 (npInterp (j : ℚ) (sampleGrid 1 [(1/10^8 : ℚ), 1])),
         roundQ 7 (npInterp (j : ℚ) (sampleGrid 1 [(0 : ℚ), 0])))) := rfl
  have hi0x : npInterp ((0 : ℕ) : ℚ) [((0 : ℚ), (1/10^8 : ℚ)), (1, 1)] = 1/10^8 := by
    show (if ((0 : ℕ) : ℚ) ≤ 0 then _ else _) = _
    rw [if_pos (by norm_num)]
  have hi1x : npInterp ((1 : ℕ) : ℚ) [((0 : ℚ), (1/10^8 : ℚ)), (1, 1)] = 1 := by
    show (if ((1 : ℕ) : ℚ) ≤ 0 then _
      else if ((1 : ℕ) : ℚ) ≤ 1 then (1 : ℚ)/10^8 + (((1 : ℕ) : ℚ) - 0) * (1 - 1/10^8) / (1 - 0)
      else _) = 1
    rw [if_neg (by norm_num), if_pos (by norm_num)]
    norm_num
  have hi0y : npInterp ((0 : ℕ) : ℚ) [((0 : ℚ), (0 : ℚ)), (1, 0)] = 0 := by
    show (if ((0 : ℕ) : ℚ) ≤ 0 then _ else _) = _
    rw [if_pos (by norm_num)]
  have hi1y : npInterp ((1 : ℕ) : ℚ) [((0 : ℚ), (0 : ℚ)), (1, 0)] = 0 := by
    show (if ((1 : ℕ) : ℚ) ≤ 0 then _
      else if ((1 : ℕ) : ℚ) ≤ 1 then (0 : ℚ) + (((1 : ℕ) : ℚ) - 0) * (0 - 0) / (1 - 0)
      else _) = 0
    rw [if_neg (by norm_num), if_pos (by norm_num)]
    norm_num
  have heval : densify_by_factor [((1/10^8 : ℚ), (0 : ℚ)), (1, 0)] 1 7 = [(0, 0), (1, 0)] := by
    rw [hdef, hgx, hgy, show List.range 2 = [0, 1] by
      rw [List.range_succ, List.range_succ, List.range_zero]; rfl]
    rw [List.map_cons, List.map_cons, List.map_nil]
    rw [hi0x, hi1x, hi0y, hi1y, hround0, hround1, hroundz]
  refine ⟨heval, ?_⟩
  rw [heval]
  intro hm
  simp only [List.mem_cons, List.not_mem_nil, or_false, Prod.mk.injEq] at hm
  rcases hm with ⟨h1, h2⟩ | ⟨h1, h2⟩ <;> norm_num at h1

theorem chain'_zip_tail {l : List Point} (h : List.Chain' (· ≠ ·) l) :
    ∀ pq ∈ l.zip l.tail, pq.1 ≠ pq.2 := by
  induction l with
  | nil => intro pq hpq; simp at hpq
  | cons a t ih =>
    cases t with
    | nil => intro pq hpq; simp at hpq
    | cons b t' =>
      intro pq hpq
      rw [List.chain'_cons] at h
      rw [show (a :: b :: t').tail = b :: t' from rfl, List.zip_cons_cons,
        List.mem_cons] at hpq
      rcases hpq with rfl | hpq
      · exact h.1
      · exact ih h.2 pq hpq

/-- C5 (amended): for a nonempty ring with pairwise-distinct adjacent points
and positive `distance`, every original point appears in the output rounded
to `precision`; each segment of length `L` contributes exactly `⌈L/distance⌉`
points — its own (rounded) start plus `⌈L/distance⌉ - 1` points strictly
between its endpoints (that is `⌊L/distance⌋` inserted points only when
`distance` does not divide `L`; one fewer at exact multiples). -/
theorem c5_densify_by_distance_spec (pts : List Point) (d : ℚ) (prec : ℕ)
    (hd : 0 < d) (hne : pts ≠ []) (hadj : List.Chain' (· ≠ ·) pts) :
    (∀ i, i < pts.length →
      roundPoint prec (pts.getD i (0, 0)) ∈ densify_by_distance pts d prec) ∧
    (∀ p q : Point, (distanceChunk d p q).length = ⌈segLen p q / (d : ℝ)⌉₊) ∧
    (∀ p q : Point, ∀ k, 0 < k → k < (distanceChunk d p q).length →
      ∃ t : ℝ, 0 < t ∧ t < 1 ∧
        (distanceChunk d p q)[k]? =
          some (((p.1 : ℚ) : ℝ) + t * ((q.1 - p.1 : ℚ) : ℝ),
                ((p.2 : ℚ) : ℝ) + t * ((q.2 - p.2 : ℚ) : ℝ))) := by
  refine ⟨?_, distanceChunk_length d, fun p q k hk0 hk =>
    distanceChunk_strictly_between d p q k hk0 hk⟩
  cases pts with
  | nil => exact absurd rfl hne
  | cons p0 rest =>
    intro i hi
    have hout : densify_by_distance (p0 :: rest) d prec
        = ((((p0 :: rest).zip rest).map
            (fun s => distanceChunk d s.1 s.2)).flatten
          ++ [(((((p0 :: rest).getLast (List.cons_ne_nil _ _)).1 : ℚ) : ℝ),
              ((((p0 :: rest).getLast (List.cons_ne_nil _ _)).2 : ℚ) : ℝ))]).map
          (fun v => (roundR prec v.1, roundR prec v.2)) := rfl
    rw [hout]
    set p : Point := (p0 :: rest).getD i (0, 0) with hp
    have hpi : (p0 :: rest)[i] = p := (List.getD_eq_getElem _ _ hi).symm
    have hroundpair : (fun v : ℝ × ℝ => (roundR prec v.1, roundR prec v.2))
        ((p.1 : ℝ), (p.2 : ℝ)) = roundPoint prec p := by
      show (roundR prec ((p.1 : ℚ) : ℝ), roundR prec ((p.2 : ℚ) : ℝ)) = _
      rw [roundR_ratCast, roundR_ratCast]
      rfl
    rcases Nat.lt_or_ge i ((p0 :: rest).length - 1) with hseg | hlast
    · -- i starts a segment: its chunk begins with the (cast) original point
      have hi1 : i + 1 < (p0 :: rest).length := by
        have := (p0 :: rest).length
        omega
      have hzlen : i < ((p0 :: rest).zip rest).length := by
        rw [List.length_zip]
        simp only [List.length_cons] at hseg ⊢
        omega
      have hi2 : i < rest.length := by
        simp only [List.length_cons] at hi1
        omega
      have hrest : rest[i] = (p0 :: rest)[i + 1] := by
        rw [List.getElem_cons_succ]
      have hzip : ((p0 :: rest).zip rest)[i]
          = ((p0 :: rest)[i], (p0 :: rest)[i + 1]) := by
        rw [List.getElem_zip, hrest]
      have hneadj : (p0 :: rest)[i] ≠ (p0 :: rest)[i + 1] := by
        rw [List.chain'_iff_get] at hadj
        have := hadj i (by simp only [List.length_cons] at hseg ⊢; omega)
        simpa [List.get_eq_getElem] using this
      have hLpos : 0 < segLen ((p0 :: rest)[i]) ((p0 :: rest)[i + 1]) :=
        segLen_pos_of_ne _ _ hneadj
      have hcpos : 0 < ⌈segLen ((p0 :: rest)[i]) ((p0 :: rest)[i + 1]) / (d : ℝ)⌉₊ := by
        apply Nat.ceil_pos.mpr
        apply div_pos hLpos
        exact_mod_cast hd
      have hhead : (distanceChunk d ((p0 :: rest)[i]) ((p0 :: rest)[i + 1])).head?
          = some ((((p0 :: rest)[i].1 : ℚ) : ℝ), (((p0 :: rest)[i].2 : ℚ) : ℝ)) :=
        distanceChunk_head d _ _ hcpos
      have hchunkmem : distanceChunk d ((p0 :: rest)[i]) ((p0 :: rest)[i + 1])
          ∈ ((p0 :: rest).zip rest).map (fun s => distanceChunk d s.1 s.2) := by
        refine List.mem_map.mpr ⟨((p0 :: rest)[i], (p0 :: rest)[i + 1]), ?_, rfl⟩
        rw [← hzip]
        exact List.getElem_mem hzlen
      have helem : ((((p0 :: rest)[i].1 : ℚ) : ℝ), (((p0 :: rest)[i].2 : ℚ) : ℝ))
          ∈ (((p0 :: rest).zip rest).map (fun s => distanceChunk d s.1 s.2)).flatten := by
        rw [List.mem_flatten]
        exact ⟨_, hchunkmem, List.mem_of_mem_head? hhead⟩
      refine List.mem_map.mpr ⟨((((p0 :: rest)[i]).1 : ℝ), (((p0 :: rest)[i]).2 : ℝ)),
        List.mem_append_left _ helem, ?_⟩
      rw [hpi] at *
      exact hroundpair
    · -- i is the last index: the appended final point
      have hieq : i = (p0 :: rest).length - 1 := by
        simp only [List.length_cons] at hi hlast ⊢
        omega
      have hlastp : (p0 :: rest).getLast (List.cons_ne_nil _ _) = p := by
        subst hieq
        rw [List.getLast_eq_getElem]
        exact hpi
      refine List.mem_map.mpr ⟨((p.1 : ℝ), (p.2 : ℝ)), ?_, hroundpair⟩
      apply List.mem_append_right
      rw [hlastp]
      exact List.mem_singleton.mpr rfl

/-- C5 witness: the distance densifier spec applied at a concrete two-point
list with unit distance. -/
theorem c5_densify_by_distance_spec_witness :
    (∀ i, i < ([((0 : ℚ), (0 : ℚ)), (1, 0)] : List Point).length →
      roundPoint 7 (([((0 : ℚ), (0 : ℚ)), (1, 0)] : List Point).getD i (0, 0))
        ∈ densify_by_distance [((0 : ℚ), (0 : ℚ)), (1, 0)] 1 7) ∧
    (∀ p q : Point, (distanceChunk 1 p q).length = ⌈segLen p q / ((1 : ℚ) : ℝ)⌉₊) ∧
    (∀ p q : Point, ∀ k, 0 < k → k < (distanceChunk 1 p q).length →
      ∃ t : ℝ, 0 < t ∧ t < 1 ∧
        (distanceChunk 1 p q)[k]? =
          some (((p.1 : ℚ) : ℝ) + t * ((q.1 - p.1 : ℚ) : ℝ),
                ((p.2 : ℚ) : ℝ) + t * ((q.2 - p.2 : ℚ) : ℝ))) :=
  c5_densify_by_distance_spec [((0 : ℚ), (0 : ℚ)), (1, 0)] 1 7 (by norm_num)
    (by simp)
    (by
      rw [List.chain'_cons]
      refine ⟨?_, List.chain'_singleton _⟩
      intro hcon
      rw [Prod.ext_iff] at hcon
      norm_num at hcon)

/-- C5 counterexample: on the segment from (0,0) to (2,0) with distance 1,
the length is an exact multiple of the distance: the claim demands
`floor(2/1) = 2` inserted points strictly between the endpoints (4 output
points in total with the two originals), but the code inserts only
`ceil(2/1) - 1 = 1` point, producing 3 points. -/
theorem c5_insert_count_off_at_exact_multiples :
    densify_by_distance [((0 : ℚ), (0 : ℚ)), ((2 : ℚ), (0 : ℚ))] 1 7
      = [(0, 0), (1, 0), (2, 0)] ∧
    ⌊segLen ((0 : ℚ), (0 : ℚ)) ((2 : ℚ), (0 : ℚ)) / ((1 : ℚ) : ℝ)⌋₊ = 2 ∧
    ([((0 : ℚ), (0 : ℚ)), (1, 0), (2, 0)] : List Point).length ≠ 2 + 2 := by
  have hseg : segLen ((0 : ℚ), (0 : ℚ)) ((2 : ℚ), (0 : ℚ)) = 2 := by
    unfold segLen
    push_cast
    rw [show ((2 : ℝ) - 0) ^ 2 + ((0 : ℝ) - 0) ^ 2 = 2 ^ 2 by norm_num]
    exact Real.sqrt_sq (by norm_num)
  have hchunk : distanceChunk 1 ((0 : ℚ), (0 : ℚ)) ((2 : ℚ), (0 : ℚ))
      = [((0 : ℝ), (0 : ℝ)), (1, 0)] := by
    simp only [distanceChunk, hseg]
    norm_num [List.range_succ]
  have hR0 : roundR 7 (0 : ℝ) = 0 := by
    rw [show (0 : ℝ) = ((0 : ℚ) : ℝ) by norm_num, roundR_ratCast]
    norm_num [roundQ, roundHalfEvenQ]
  have hR1 : roundR 7 (1 : ℝ) = 1 := by
    rw [show (1 : ℝ) = ((1 : ℚ) : ℝ) by norm_num, roundR_ratCast]
    norm_num [roundQ, roundHalfEvenQ]
  have hR2 : roundR 7 ((2 : ℚ) : ℝ) = 2 := by
    rw [roundR_ratCast]
    norm_num [roundQ, roundHalfEvenQ]
  refine ⟨?_, ?_, by simp⟩
  · have hdef : densify_by_distance [((0 : ℚ), (0 : ℚ)), ((2 : ℚ), (0 : ℚ))] 1 7
        = ([distanceChunk 1 ((0 : ℚ), (0 : ℚ)) ((2 : ℚ), (0 : ℚ))].flatten
          ++ [(((2 : ℚ) : ℝ), ((0 : ℚ) : ℝ))]).map
          (fun v => (roundR 7 v.1, roundR 7 v.2)) := rfl
    rw [hdef, hchunk]
    show ((([((0 : ℝ), (0 : ℝ)), (1, 0)]) ++ []) ++ [(((2 : ℚ) : ℝ), ((0 : ℚ) : ℝ))]).map
        (fun (v : ℝ × ℝ) => (roundR 7 v.1, roundR 7 v.2)) = _
    rw [List.append_nil, List.cons_append, List.cons_append, List.nil_append,
      List.map_cons, List.map_cons, List.map_cons, List.map_nil]
    rw [show ((0 : ℚ) : ℝ) = (0 : ℝ) by norm_num]
    rw [hR0, hR1, hR2]
  · rw [hseg]
    norm_num

/-- C10: with pairwise-distinct adjacent points and a positive distance, no
divisor in `densify_by_distance` is zero (neither the distance nor any
per-segment step count); with a zero-length segment the step count is zero,
so the segment contributes an empty row — no error is raised, the NaN-valued
`dxdy/steps` quotients are never consumed, and the output silently omits the
segment's starting original point (here the duplicated start shrinks the
two-point list to a single point). -/
theorem c10_zero_length_segment_behavior (pts : List Point) (d : ℚ)
    (hd : 0 < d) (hadj : List.Chain' (· ≠ ·) pts) :
    ((d : ℝ) ≠ 0 ∧ ∀ pq ∈ pts.zip pts.tail, segLen pq.1 pq.2 / (d : ℝ) ≠ 0) ∧
    densify_by_distance [((0 : ℚ), (0 : ℚ)), ((0 : ℚ), (0 : ℚ))] 1 7 = [(0, 0)] ∧
    (distanceChunk 1 ((0 : ℚ), (0 : ℚ)) ((0 : ℚ), (0 : ℚ))).length = 0 := by
  have hdne : (d : ℝ) ≠ 0 := by
    have : (0 : ℝ) < (d : ℝ) := by exact_mod_cast hd
    exact ne_of_gt this
  have hchunk : distanceChunk 1 ((0 : ℚ), (0 : ℚ)) ((0 : ℚ), (0 : ℚ)) = [] := by
    simp only [distanceChunk, segLen_eq_zero]
    norm_num
  refine ⟨⟨hdne, ?_⟩, ?_, by rw [hchunk]; rfl⟩
  · intro pq hpq
    exact div_ne_zero (ne_of_gt (segLen_pos_of_ne _ _ (chain'_zip_tail hadj pq hpq))) hdne
  · have hdef : densify_by_distance [((0 : ℚ), (0 : ℚ)), ((0 : ℚ), (0 : ℚ))] 1 7
        = ([distanceChunk 1 ((0 : ℚ), (0 : ℚ)) ((0 : ℚ), (0 : ℚ))].flatten
          ++ [(((0 : ℚ) : ℝ), ((0 : ℚ) : ℝ))]).map
          (fun v => (roundR 7 v.1, roundR 7 v.2)) := rfl
    rw [hdef, hchunk]
    show (([] ++ []) ++ [(((0 : ℚ) : ℝ), ((0 : ℚ) : ℝ))]).map
        (fun (v : ℝ × ℝ) => (roundR 7 v.1, roundR 7 v.2)) = _
    rw [List.nil_append, List.nil_append, List.map_cons, List.map_nil]
    rw [roundR_ratCast]
    norm_num [roundQ, roundHalfEvenQ]

/-- C10 witness: the no-zero-divisor part at a concrete distinct-point list. -/
theorem c10_zero_length_segment_behavior_witness :
    (((1 : ℚ) : ℝ) ≠ 0 ∧ ∀ pq ∈ ([((0 : ℚ), (0 : ℚ)), (1, 0)] : List Point).zip
        ([((0 : ℚ), (0 : ℚ)), (1, 0)] : List Point).tail,
      segLen pq.1 pq.2 / ((1 : ℚ) : ℝ) ≠ 0) ∧
    densify_by_distance [((0 : ℚ), (0 : ℚ)), ((0 : ℚ), (0 : ℚ))] 1 7 = [(0, 0)] ∧
    (distanceChunk 1 ((0 : ℚ), (0 : ℚ)) ((0 : ℚ), (0 : ℚ))).length = 0 :=
  c10_zero_length_segment_behavior [((0 : ℚ), (0 : ℚ)), (1, 0)] 1 (by norm_num)
    (by
      rw [List.chain'_cons]
      refine ⟨?_, List.chain'_singleton _⟩
      intro hcon
      rw [Prod.ext_iff] at hcon
      norm_num at hcon)

end RasterFootprint
